import Mathlib

set_option maxRecDepth 8000

namespace QwenVidCap

/-!  Shallow embedding of the qwen-video-captioning dispatcher (src/main.py) and its
maintenance utility (src/clean_and_format_captions.py).  Wall-clock times and prices
are rationals; Python strings are lists of characters. -/

/-- Python `s.lower()` (the model identifiers involved are ASCII). -/
def pyLower (s : List Char) : List Char := s.map Char.toLower

/-- Python `needle in hay` for strings (substring test). -/
def pyIn (needle hay : List Char) : Bool := decide (needle <:+: hay)

/-- Python `s.endswith(suf)`. -/
def pyEndsWith (s suf : List Char) : Bool := decide (suf <:+ s)

/-- Python `s.startswith(pre)`. -/
def pyStartsWith (s pre : List Char) : Bool := decide (pre <+: s)

/-- Python `s.find(c)` for a single character, with `None` for `-1`. -/
def pyFind (c : Char) (s : List Char) : Option Nat := s.findIdx? (fun x => x = c)

/-- Python `s.rfind(c)` for a single character — the index of the last
occurrence of `c` in `s` — with `None` for `-1`. -/
def pyRFind (c : Char) : List Char → Option Nat
  | [] => none
  | a :: rest =>
    match pyRFind c rest with
    | some i => some (i + 1)
    | none => if a = c then some 0 else none

/-! ## Rate Admission Controller (src/main.py, `wait_for_rate_limits`)

The deque eviction loop
`while request_timestamps and current_time - request_timestamps[0] > 60: popleft()`
drops timestamps strictly older than 60 seconds from the front. -/

/-- Front eviction of the request window at observation time `now`. -/
def evict (now : ℚ) (w : List ℚ) : List ℚ :=
  w.dropWhile (fun t => decide (60 < now - t))

/-- One call of `wait_for_rate_limits`, as the code performs it: under the lock,
evict and compute the wait (`max(0, request_timestamps[0] + 60 - current_time)`
when `len(request_timestamps) >= max_rpm`); sleep outside the lock; then re-acquire
the lock and append the fresh `time.time()` *without re-applying eviction*.
`c` is the first observed time, `slack ≥ 0` is how much later than `c + wait`
the appended observation lands (sleep overshoot / lock reacquisition).
Returns the new window and the appended admission timestamp.
(For `maxRpm = 0` with an empty window the Python indexes an empty deque and
raises; the spec declares a budget `≤ 0` undefined, so `headD` is never the
default in the claims, which all assume `1 ≤ maxRpm`.) -/
def wait_for_rate_limits (maxRpm : Nat) (window : List ℚ) (c slack : ℚ) :
    List ℚ × ℚ :=
  let w := evict c window
  let wait : ℚ := if maxRpm ≤ w.length then max 0 (w.headD 0 + 60 - c) else 0
  let t := c + wait + slack
  (w ++ [t], t)

/-- Modelled from the spec (§4.1): the admission algorithm as the spec words it,
which after the sleep re-checks the window "with eviction re-applied" before
appending the new timestamp.  Used only to compare against
`wait_for_rate_limits`, the embedding of the code. -/
def admitSpecAlg (maxRpm : Nat) (window : List ℚ) (c slack : ℚ) :
    List ℚ × ℚ :=
  let w := evict c window
  let wait : ℚ := if maxRpm ≤ w.length then max 0 (w.headD 0 + 60 - c) else 0
  let t := c + wait + slack
  (evict t w ++ [t], t)

/-- State threaded through a sequence of non-overlapping calls:
the shared deque, the log of every admission timestamp ever appended,
and the last observed time. -/
structure SeqSt where
  window : List ℚ
  admitted : List ℚ
  last : ℚ

/-- One sequential (non-overlapping) call: the clock strictly advances by `gap > 0`
to the call's first observation, then `wait_for_rate_limits` runs to completion. -/
def seqStep (maxRpm : Nat) (s : SeqSt) (gap slack : ℚ) : SeqSt :=
  let c := s.last + gap
  let r := wait_for_rate_limits maxRpm s.window c slack
  ⟨r.1, s.admitted ++ [r.2], r.2⟩

/-- A run of sequential calls, described by their (gap, slack) pairs. -/
def seqRun (maxRpm : Nat) (s : SeqSt) : List (ℚ × ℚ) → SeqSt
  | [] => s
  | p :: ps => seqRun maxRpm (seqStep maxRpm s p.1 p.2) ps

/-- The empty starting state of the dispatcher (`request_timestamps = deque()`). -/
def seqInit : SeqSt := ⟨[], [], 0⟩

/-- Membership of a timestamp in the 60-second window starting at `a`. -/
def inWin (a t : ℚ) : Bool := decide (a ≤ t ∧ t < a + 60)

/-! ### Concurrent small-step model of `wait_for_rate_limits`

The call consists of two lock-protected atomic sections separated by an
unlocked sleep, so other workers' sections may interleave in between:

* phase 1 (first `with rpm_lock`): evict, read the length, compute the wait;
* (lock released, `time.sleep(wait)`);
* phase 2 (second `with rpm_lock`): append the current time.
-/

/-- Where a worker stands inside its current call. -/
inductive WPhase where
  | idle : WPhase
  | sleeping : ℚ → WPhase
deriving DecidableEq

/-- Global configuration: wall clock, the shared deque, the log of admissions,
and each worker's phase. -/
structure CCfg where
  now : ℚ
  window : List ℚ
  admitted : List ℚ
  ws : List WPhase

/-- Scheduler actions: let time pass, or run one worker's next atomic section. -/
inductive Act where
  | advance : ℚ → Act
  | p1 : Nat → Act
  | p2 : Nat → Act

/-- One scheduler step.  Disabled actions (wrong phase, or a worker whose wake
time has not been reached) leave the configuration unchanged, so every action
list denotes a genuinely possible execution. -/
def cstep (maxRpm : Nat) (cfg : CCfg) : Act → CCfg
  | Act.advance d => { cfg with now := cfg.now + max 0 d }
  | Act.p1 i =>
    match cfg.ws.get? i with
    | some WPhase.idle =>
      let w := evict cfg.now cfg.window
      let wait : ℚ := if maxRpm ≤ w.length then max 0 (w.headD 0 + 60 - cfg.now) else 0
      { cfg with window := w, ws := cfg.ws.set i (WPhase.sleeping (cfg.now + wait)) }
    | _ => cfg
  | Act.p2 i =>
    match cfg.ws.get? i with
    | some (WPhase.sleeping wake) =>
      if wake ≤ cfg.now then
        { cfg with window := cfg.window ++ [cfg.now],
                   admitted := cfg.admitted ++ [cfg.now],
                   ws := cfg.ws.set i WPhase.idle }
      else cfg
    | _ => cfg

/-- Run a whole schedule. -/
def crun (maxRpm : Nat) (cfg : CCfg) (acts : List Act) : CCfg :=
  acts.foldl (cstep maxRpm) cfg

/-! ## Response Normalizer (src/main.py, lines 334–350 of `main`) -/

/-- The object written as the caption part of the artifact: either the object
parsed out of the response text, or the error envelope
`{"caption": result, "error": "JSON parse failed"}` holding the (fence-stripped)
text.  `J` abstracts the parsed-JSON values. -/
inductive CaptionData (J : Type) where
  | parsed : J → CaptionData J
  | fallback : List Char → CaptionData J
deriving DecidableEq

/-- The markdown fence stripping:
`if result.startswith("```json"): result = result[7:-3]`
`elif result.startswith("```"): result = result[3:-3]`. -/
def stripFences (r : List Char) : List Char :=
  if pyStartsWith r ("```json".toList) then (r.drop 7).take (r.length - 3 - 7)
  else if pyStartsWith r ("```".toList) then (r.drop 3).take (r.length - 3 - 3)
  else r

/-- The normalization step: strip fences, locate the first `{` and last `}`,
try to parse that substring (`json.loads` abstracted as `parse`), and fall back
to the error envelope when the braces are missing or the parse fails. -/
def normalize {J : Type} (parse : List Char → Option J) (result0 : List Char) :
    CaptionData J :=
  let result := stripFences result0
  match pyFind '{' result, pyRFind '}' result with
  | some s, some e =>
    match parse ((result.drop s).take (e + 1 - s)) with
    | some j => CaptionData.parsed j
    | none => CaptionData.fallback result
  | some _, none => CaptionData.fallback result
  | none, _ => CaptionData.fallback result

/-! ## Dispatcher result handling (src/main.py, `main`, lines 331–362) -/

/-- Outcome of the main loop's handling of one completed future:
either an artifact is written (holding the normalized caption data), or the
failure `"Failed to get result ..."` is logged and nothing is written. -/
inductive ItemOutcome (J : Type) where
  | wrote : CaptionData J → ItemOutcome J
  | failed : ItemOutcome J
deriving DecidableEq

/-- `result, metadata = future.result(); if result: ... else: log failure`.
`raw` is the text returned by the worker (`None` on a per-item error);
Python string truthiness makes the empty string take the failure branch. -/
def handleFuture {J : Type} (parse : List Char → Option J) (raw : Option (List Char)) :
    ItemOutcome J :=
  match raw with
  | some r => if r = [] then ItemOutcome.failed else ItemOutcome.wrote (normalize parse r)
  | none => ItemOutcome.failed

/-! ## Work Selector (src/main.py, `get_video_files`) -/

/-- `os.path.splitext(f)[0]`: everything before the last dot, except that a dot
with only dots before it (a leading-dot name) starts no extension. -/
def splitextBase (f : List Char) : List Char :=
  match pyRFind '.' f with
  | none => f
  | some i => if (f.take i).any (fun ch => ch ≠ '.') then f.take i else f

/-- `f.lower().endswith(('.mp4', '.mov', '.avi'))`. -/
def isVideoName (f : List Char) : Bool :=
  pyEndsWith (pyLower f) (".mp4".toList) ||
  pyEndsWith (pyLower f) (".mov".toList) ||
  pyEndsWith (pyLower f) (".avi".toList)

/-- `get_video_files`: the directory listings stand in for the file system;
`shuffle` abstracts `random.shuffle` as an arbitrary permutation (the identity
when the shuffle flag is off); `[:max_items]` is the final truncation. -/
def get_video_files (inputListing outputListing : List (List Char)) (maxItems : Nat)
    (shuffle : List (List Char) → List (List Char)) : List (List Char) :=
  let all_videos := inputListing.filter isVideoName
  let processed := (outputListing.filter (fun f => pyEndsWith f (".json".toList))).map splitextBase
  let videos_to_process := all_videos.filter (fun v => decide (splitextBase v ∉ processed))
  (shuffle videos_to_process).take maxItems

/-! ## Pacing model (src/main.py, `main`)

The worker function `submit_with_rate_limit_check` contains no sleep after an
item; a pool worker therefore starts its next item the moment the previous one
finishes.  The `time.sleep(request_delay)` sits in the main thread's
`as_completed` loop, after each result is handled. -/

/-- Consecutive (start, finish) pairs of one pool worker that receives items of
the given durations back to back (duration = admission wait + client call). -/
def workerSchedule (t0 : ℚ) : List ℚ → List (ℚ × ℚ)
  | [] => []
  | d :: ds => (t0, t0 + d) :: workerSchedule (t0 + d) ds

/-- Times at which the main loop handles successive completions: each handling
waits for the future to complete and for the `request_delay` sleep that follows
the previous handling (`prev` = earliest next handling time). -/
def mainLoopTimes (delay : ℚ) : ℚ → List ℚ → List ℚ
  | _, [] => []
  | prev, cdone :: cs =>
    let h := max cdone prev
    h :: mainLoopTimes delay (h + delay) cs

/-- The property claimed of the workers: every item starts at least `delay`
after the same worker finished its previous item. -/
def workerRespectsDelay (delay : ℚ) (sched : List (ℚ × ℚ)) : Prop :=
  List.Chain' (fun a b => a.2 + delay ≤ b.1) sched

/-! ## Cost Estimator (src/main.py, `calculate_cost`) -/

/-- The returned breakdown, together with the per-million rates the function
selected (the locals `input_price` / `output_price` of the source).  The Python
display rounding `round(·, 6)` of the three cost fields is a binary-float
operation and is not modelled; the costs here are the exact products. -/
structure CostInfo where
  input_price : ℚ
  output_price : ℚ
  input_cost_usd : ℚ
  output_cost_usd : ℚ
  total_cost_usd : ℚ
  pricing_model : List Char
deriving DecidableEq

/-- The flat-rate table for non-tiered models, in source order. -/
def pricingTable : List (List Char × ℚ × ℚ) :=
  [("qwen-vl-max".toList, 2.8, 8.4),
   ("qwen-vl-plus".toList, 1.12, 2.8),
   ("qwen3-vl-plus".toList, 1.12, 2.8),
   ("qwen-vl-turbo".toList, 0.28, 0.84)]

/-- `calculate_cost(input_tokens, output_tokens, model)`. -/
def calculate_cost (input_tokens output_tokens : Nat) (model : List Char) : CostInfo :=
  if pyIn ("qwen3-vl-flash".toList) (pyLower model) then
    let prices : ℚ × ℚ :=
      if input_tokens ≤ 32000 then (0.05, 0.40)
      else if input_tokens ≤ 128000 then (0.075, 0.60)
      else (0.12, 0.96)
    let input_cost : ℚ := ((input_tokens : ℚ) / 1000000) * prices.1
    let output_cost : ℚ := ((output_tokens : ℚ) / 1000000) * prices.2
    ⟨prices.1, prices.2, input_cost, output_cost, input_cost + output_cost,
     "qwen3-vl-flash-tiered".toList⟩
  else
    let entry : List Char × ℚ × ℚ :=
      match pricingTable.find? (fun p => pyIn p.1 (pyLower model)) with
      | some p => p
      | none => ("qwen-vl-plus".toList, 1.12, 2.8)
    let input_cost : ℚ := ((input_tokens : ℚ) / 1000000) * entry.2.1
    let output_cost : ℚ := ((output_tokens : ℚ) / 1000000) * entry.2.2
    ⟨entry.2.1, entry.2.2, input_cost, output_cost, input_cost + output_cost, entry.1⟩

/-! ## Maintenance utility (src/clean_and_format_captions.py) -/

/-- Python regex whitespace class `\s` over the ASCII range. -/
def isPySpace (c : Char) : Bool :=
  c = ' ' || c = '\t' || c = '\n' || c = '\r' || c = '\x0b' || c = '\x0c'

/-- `fix_json_content`: the single pass of the substitution that removes a comma
standing, possibly with whitespace in between, right before `}` or `]`.  A comma
matches when, after a (possibly empty) run of whitespace, the next character is
`}` or `]`; the match is replaced by its group (the whitespace and the bracket),
so exactly the comma is deleted, and scanning resumes after the bracket
(leftmost, non-overlapping matches, as `re.sub` performs them). -/
def fix_json_content : List Char → List Char
  | [] => []
  | ch :: rest =>
    if ch = ',' then
      match h : rest.dropWhile isPySpace with
      | b :: tail =>
        if b = '}' || b = ']' then
          rest.takeWhile isPySpace ++ b :: fix_json_content tail
        else ch :: fix_json_content rest
      | [] => ch :: fix_json_content rest
    else ch :: fix_json_content rest
termination_by l => l.length
decreasing_by
  · have hl : (rest.dropWhile isPySpace).length ≤ rest.length := by
      clear h
      induction rest with
      | nil => simp
      | cons a l ih =>
        rw [List.dropWhile_cons]
        split
        · exact ih.trans (by simp)
        · simp
    rw [h] at hl
    simp at hl ⊢
    omega
  · simp
  · simp
  · simp

/-- `JSON_SUFFIX = '_analysis.json'` (14 characters). -/
def analysisExt : List Char := "_analysis.json".toList

/-- `VIDEO_EXT = '.mp4'`. -/
def videoExt : List Char := ".mp4".toList

/-- Fuel-indexed scanner behind `replaceAnalysisAll`; every step strictly
shortens the list, so fuel = initial length never runs out. -/
def replaceAnalysisAllAux : Nat → List Char → List Char
  | 0, l => l
  | _ + 1, [] => []
  | fuel + 1, ch :: rest =>
    if analysisExt.isPrefixOf (ch :: rest) then
      replaceAnalysisAllAux fuel ((ch :: rest).drop 14)
    else ch :: replaceAnalysisAllAux fuel rest

/-- Python `filename.replace('_analysis.json', '')`: delete every leftmost,
non-overlapping occurrence of the 14-character constant. -/
def replaceAnalysisAll (l : List Char) : List Char :=
  replaceAnalysisAllAux l.length l

/-- Whether `clean_orphans` deletes a listing entry: it bears the
`_analysis.json` suffix and `input_dir/<base>.mp4` does not exist. -/
def orphanDeleted (inputFiles : List (List Char)) (f : List Char) : Bool :=
  pyEndsWith f analysisExt && decide ((replaceAnalysisAll f ++ videoExt) ∉ inputFiles)

/-- `clean_orphans(captions_dir, input_dir)` over directory listings:
returns (deleted files, surviving files). -/
def clean_orphans (captions inputFiles : List (List Char)) :
    List (List Char) × List (List Char) :=
  (captions.filter (orphanDeleted inputFiles),
   captions.filter (fun f => !(orphanDeleted inputFiles f)))

/-- Modelled from the spec (claim C8's wording): a "corresponding input item" is
any input media file with the same base identifier, for the three media
extensions the Work Selector accepts. -/
def specCorrespondingInputExists (inputFiles : List (List Char)) (f : List Char) : Prop :=
  ∃ ext ∈ [".mp4".toList, ".mov".toList, ".avi".toList],
    (replaceAnalysisAll f ++ ext) ∈ inputFiles

/-- Result of `process_files` on one artifact: the dictionary it rewrites the
file with (the top level modelled as an association list — a parsed Python dict
has unique keys) plus whether the trailing-comma repair was needed, or a parse
failure (`continue`: the file is never written). -/
inductive FileResult (α : Type) where
  | rewritten : List (List Char × α) → Bool → FileResult α
  | parseFailed : FileResult α
deriving DecidableEq

/-- `keys_to_remove = ['usage_metadata', 'file_metadata']`. -/
def keysToRemove : List (List Char) := ["usage_metadata".toList, "file_metadata".toList]

/-- `if key in data: del data[key]` on the association-list model of the dict
(unique keys, so deleting the key is filtering it out). -/
def pyDelKey {α : Type} (d : List (List Char × α)) (k : List Char) :
    List (List Char × α) := d.filter (fun kv => decide (kv.1 ≠ k))

/-- The metadata-removal loop `for key in keys_to_remove: ...`. -/
def removeKeys {α : Type} (d : List (List Char × α)) : List (List Char × α) :=
  keysToRemove.foldl pyDelKey d

/-- The per-file body of `process_files`: try `json.loads` (abstracted as
`parse`); on failure repair with `fix_json_content` and retry; on success strip
the two reserved keys and rewrite; on double failure log, count and skip. -/
def processFileStep {α : Type} (parse : List Char → Option (List (List Char × α)))
    (content : List Char) : FileResult α :=
  match parse content with
  | some data => FileResult.rewritten (removeKeys data) false
  | none =>
    match parse (fix_json_content content) with
    | some data => FileResult.rewritten (removeKeys data) true
    | none => FileResult.parseFailed

/-- The content a file holds after `process_files` visits it: the canonical
serialization (`json.dump`, abstracted as `dump`) of the cleaned dictionary, or
the original content untouched after a parse failure. -/
def contentAfter {α : Type} (parse : List Char → Option (List (List Char × α)))
    (dump : List (List Char × α) → List Char) (content : List Char) : List Char :=
  match processFileStep parse content with
  | FileResult.rewritten d _ => dump d
  | FileResult.parseFailed => content

/-- How one file updates the `(processed_count, fixed_count, error_count)`
counters of `process_files`. -/
def countStep {α : Type} (parse : List Char → Option (List (List Char × α)))
    (acc : Nat × Nat × Nat) (content : List Char) : Nat × Nat × Nat :=
  match processFileStep parse content with
  | FileResult.rewritten _ false => (acc.1 + 1, acc.2.1, acc.2.2)
  | FileResult.rewritten _ true => (acc.1 + 1, acc.2.1 + 1, acc.2.2)
  | FileResult.parseFailed => (acc.1, acc.2.1, acc.2.2 + 1)

/-- The summary counters of `process_files` over the suffix-bearing files:
(processed, fixed, errors). -/
def processFilesCounts {α : Type} (parse : List Char → Option (List (List Char × α)))
    (files : List (List Char)) : Nat × Nat × Nat :=
  files.foldl (countStep parse) (0, 0, 0)

/-- The brace-delimited object of the spec's fenced example. -/
def exampleObj : List Char := ['{', '"', 'a', '"', ':', '1', '}']

/-- A concrete stand-in for `json.loads` recognizing just the example object. -/
def exampleParse : List Char → Option Nat :=
  fun l => if l = exampleObj then some 1 else none

/-- Concrete artifact dictionary for the C9 witness. -/
def exData9 : List (List Char × Nat) :=
  [("caption".toList, 2), ("usage_metadata".toList, 1), ("file_metadata".toList, 3)]

/-- Concrete parser for the C9 witness: the content "a" parses to `exData9`. -/
def exParse9 : List Char → Option (List (List Char × Nat)) :=
  fun content => if content = ['a'] then some exData9 else none

/-- Concrete serializer for the C9 witness. -/
def exDump9 : List (List Char × Nat) → List Char :=
  fun d => List.replicate d.length 'x'

/-- The inductive invariant of sequential admission runs: the log splits into a
long-expired prefix and the current window; all admissions precede the last
observation; the window holds at most one entry over the budget, and in that
case its head is already expired; and — the rate-budget bound itself — no
60-second window holds more than `maxRpm` admissions. -/
def RLInv (maxRpm : Nat) (s : SeqSt) : Prop :=
  (∃ P, s.admitted = P ++ s.window ∧ ∀ x ∈ P, x ≤ s.last - 60) ∧
  (∀ x ∈ s.admitted, x ≤ s.last) ∧
  s.window.length ≤ maxRpm + 1 ∧
  (s.window.length = maxRpm + 1 → s.window.headD 0 ≤ s.last - 60) ∧
  (∀ a : ℚ, s.admitted.countP (inWin a) ≤ maxRpm)

/-! ## Claim theorems -/

/-- Dropping a prefix never lengthens a list. -/
theorem length_dropWhile_le {α : Type} (p : α → Bool) (l : List α) :
    (l.dropWhile p).length ≤ l.length := by
  induction l with
  | nil => simp
  | cons a l ih =>
    rw [List.dropWhile_cons]
    split
    · exact ih.trans (by simp)
    · simp

/-- C5: for every model identifier containing `qwen3-vl-flash` (case-folded) and
every output-token count, `calculate_cost` selects the tier by the input-token
count with inclusive upper bounds and no off-by-one leakage: 32000 input tokens
take the 0.05/0.40 per-million rates, 32001 and 128000 take 0.075/0.60, and
128001 takes 0.12/0.96. -/
theorem C5_tiered_pricing_boundary (model : List Char) (out : Nat)
    (h : pyIn ("qwen3-vl-flash".toList) (pyLower model) = true) :
    ((calculate_cost 32000 out model).input_price = 0.05 ∧
     (calculate_cost 32000 out model).output_price = 0.40) ∧
    ((calculate_cost 32001 out model).input_price = 0.075 ∧
     (calculate_cost 32001 out model).output_price = 0.60) ∧
    ((calculate_cost 128000 out model).input_price = 0.075 ∧
     (calculate_cost 128000 out model).output_price = 0.60) ∧
    ((calculate_cost 128001 out model).input_price = 0.12 ∧
     (calculate_cost 128001 out model).output_price = 0.96) := by
  simp at h
  simp [calculate_cost, h]

/-- Witness for C5 at the tiered model identifier itself. -/
theorem C5_tiered_pricing_boundary_witness :
    ((calculate_cost 32000 7 ("qwen3-vl-flash".toList)).input_price = 0.05 ∧
     (calculate_cost 32000 7 ("qwen3-vl-flash".toList)).output_price = 0.40) ∧
    ((calculate_cost 32001 7 ("qwen3-vl-flash".toList)).input_price = 0.075 ∧
     (calculate_cost 32001 7 ("qwen3-vl-flash".toList)).output_price = 0.60) ∧
    ((calculate_cost 128000 7 ("qwen3-vl-flash".toList)).input_price = 0.075 ∧
     (calculate_cost 128000 7 ("qwen3-vl-flash".toList)).output_price = 0.60) ∧
    ((calculate_cost 128001 7 ("qwen3-vl-flash".toList)).input_price = 0.12 ∧
     (calculate_cost 128001 7 ("qwen3-vl-flash".toList)).output_price = 0.96) :=
  C5_tiered_pricing_boundary ("qwen3-vl-flash".toList) 7 (by decide)

/-- C10: the dispatcher writes an artifact for an item exactly when the worker
returned a raw text that is neither `None` nor empty; in particular a
successful call whose extracted text is the empty string is handled through the
failure branch (logged, no artifact, so the item stays eligible). -/
theorem C10_artifact_iff_nonempty_text {J : Type} (parse : List Char → Option J) :
    (∀ raw, (∃ cd, handleFuture parse raw = ItemOutcome.wrote cd) ↔
      (raw ≠ none ∧ raw ≠ some [])) ∧
    handleFuture parse (some []) = ItemOutcome.failed ∧
    handleFuture parse none = ItemOutcome.failed := by
  refine ⟨?_, by simp [handleFuture], by simp [handleFuture]⟩
  intro raw
  match raw with
  | none => simp [handleFuture]
  | some r =>
    by_cases hr : r = []
    · subst hr; simp [handleFuture]
    · simp [handleFuture, hr]

/-- C3: the normalization step is total — for every input string it produces a
writable object: the parsed object whenever the fence-stripped text has a first
`{` and a last `}` whose enclosed substring parses, and otherwise the error
envelope `{"caption": text, "error": "JSON parse failed"}`; the spec's fenced
and brace-free examples behave as stated. -/
theorem C3_normalizer_totality :
    (∀ (J : Type) (parse : List Char → Option J) (r : List Char),
      (∃ s e j, pyFind '{' (stripFences r) = some s ∧
                pyRFind '}' (stripFences r) = some e ∧
                parse (((stripFences r).drop s).take (e + 1 - s)) = some j ∧
                normalize parse r = CaptionData.parsed j) ∨
      normalize parse r = CaptionData.fallback (stripFences r)) ∧
    normalize exampleParse ("```json\n".toList ++ exampleObj ++ "\n```".toList) =
      CaptionData.parsed 1 ∧
    normalize exampleParse ("no braces here".toList) =
      CaptionData.fallback ("no braces here".toList) := by
  refine ⟨?_, by decide, by decide⟩
  intro J parse r
  cases hf : pyFind '{' (stripFences r) with
  | none => right; simp [normalize, hf]
  | some s =>
    cases he : pyRFind '}' (stripFences r) with
    | none => right; simp [normalize, hf, he]
    | some e =>
      cases hp : parse (((stripFences r).drop s).take (e + 1 - s)) with
      | none => right; simp [normalize, hf, he, hp]
      | some j =>
        left
        refine ⟨s, e, j, rfl, rfl, hp, ?_⟩
        simp [normalize, hf, he, hp]

/-- C6 counterexample: with pacing delay 1/2 and two items of duration 1
handled by a single pool worker, the worker starts the second item at the very
instant the first finishes — the worker function contains no post-item sleep
(the `time.sleep(request_delay)` runs on the main thread's collection loop) —
so the claimed per-worker pacing fails. -/
theorem C6_counterexample :
    ¬ workerRespectsDelay (1/2) (workerSchedule 0 [1, 1]) := by
  simp [workerRespectsDelay, workerSchedule, List.chain'_cons]

/-- The first handling of the main collection loop comes no earlier than the
earliest-allowed time it was given. -/
theorem mainLoopTimes_head_ge (delay prev : ℚ) (cs : List ℚ) :
    ∀ x ∈ (mainLoopTimes delay prev cs).head?, prev ≤ x := by
  cases cs with
  | nil => simp [mainLoopTimes]
  | cons cdone cs => simp [mainLoopTimes]

/-- A worker's first (start, finish) pair starts at the given time. -/
theorem workerSchedule_head_fst (t0 : ℚ) (ds : List ℚ) :
    ∀ q ∈ (workerSchedule t0 ds).head?, q.1 = t0 := by
  cases ds with
  | nil => simp [workerSchedule]
  | cons d ds => simp [workerSchedule]

/-- C6 amended: the configured inter-request pacing delay paces the main
thread's result-collection loop — consecutive handlings (and hence consecutive
artifact writes) lie at least `delay` apart — while a pool worker begins its
next item exactly when its previous item finishes, with no delay in between. -/
theorem C6_amended_pacing :
    (∀ (delay prev : ℚ) (cs : List ℚ),
      List.Chain' (fun a b => a + delay ≤ b) (mainLoopTimes delay prev cs)) ∧
    (∀ (t0 : ℚ) (ds : List ℚ),
      List.Chain' (fun a b => b.1 = a.2) (workerSchedule t0 ds)) := by
  constructor
  · intro delay prev cs
    induction cs generalizing prev with
    | nil => simp [mainLoopTimes]
    | cons cdone cs ih =>
      rw [mainLoopTimes, List.chain'_cons']
      exact ⟨mainLoopTimes_head_ge delay _ cs, ih _⟩
  · intro t0 ds
    induction ds generalizing t0 with
    | nil => simp [workerSchedule]
    | cons d ds ih =>
      rw [workerSchedule, List.chain'_cons']
      refine ⟨?_, ih _⟩
      intro q hq
      exact workerSchedule_head_fst _ ds q hq

/-- C8 counterexample: the artifact `x_analysis.json` whose input item is the
media file `x.mov` — same base identifier, a selectable video extension — is
nonetheless deleted by `clean_orphans`, which only ever looks for `<base>.mp4`. -/
theorem C8_counterexample :
    "x_analysis.json".toList ∈
      (clean_orphans ["x_analysis.json".toList] ["x.mov".toList]).1 ∧
    specCorrespondingInputExists ["x.mov".toList] ("x_analysis.json".toList) := by
  constructor
  · decide
  · exact ⟨".mov".toList, by decide, by decide⟩

/-- C8 amended: `clean_orphans` deletes exactly the suffix-bearing artifacts
whose `<base>.mp4` is absent from the input directory — only the `.mp4`
extension is consulted, so artifacts whose input item carries a `.mov` or
`.avi` extension are treated as orphans — and every other file survives
untouched. -/
theorem C8_amended_orphan_rule (captions inputFiles : List (List Char)) :
    (∀ f, f ∈ (clean_orphans captions inputFiles).1 ↔
      f ∈ captions ∧ pyEndsWith f analysisExt = true ∧
        (replaceAnalysisAll f ++ videoExt) ∉ inputFiles) ∧
    (∀ f, f ∈ (clean_orphans captions inputFiles).2 ↔
      f ∈ captions ∧ f ∉ (clean_orphans captions inputFiles).1) ∧
    ((clean_orphans captions inputFiles).1 ++ (clean_orphans captions inputFiles).2).Perm
      captions := by
  refine ⟨?_, ?_, ?_⟩
  · intro f
    simp [clean_orphans, List.mem_filter, orphanDeleted, Bool.and_eq_true]
  · intro f
    by_cases hd : orphanDeleted inputFiles f = true
    · simp [clean_orphans, List.mem_filter, hd]
    · have hd2 : orphanDeleted inputFiles f = false := by simpa using hd
      simp [clean_orphans, List.mem_filter, hd2]
  · simpa [clean_orphans] using List.filter_append_perm (orphanDeleted inputFiles) captions

/-- The repair only ever deletes characters: its output is a sublist of its
input. -/
theorem fix_json_content_sublist (l : List Char) : (fix_json_content l).Sublist l := by
  induction l using fix_json_content.induct with
  | case1 => simp [fix_json_content]
  | case2 rest b tail hdrop hbrace ih =>
    rw [fix_json_content, hdrop]
    simp only [hbrace, if_true, if_pos rfl]
    set ws := rest.takeWhile isPySpace with hws
    have hrest : ws ++ b :: tail = rest := by
      rw [hws]
      conv_rhs => rw [← List.takeWhile_append_dropWhile (p := isPySpace) (l := rest)]
      rw [hdrop]
    rw [← hrest]
    exact List.Sublist.cons ',' ((ih.cons₂ b).append_left ws)
  | case3 rest b tail hdrop hbrace ih =>
    rw [fix_json_content, hdrop]
    simp only [hbrace, if_pos rfl, if_false, Bool.false_eq_true, reduceIte]
    exact ih.cons₂ ','
  | case4 rest hdrop ih =>
    rw [fix_json_content, hdrop]
    simp only [if_pos rfl]
    exact ih.cons₂ ','
  | case5 a rest ha ih =>
    rw [fix_json_content]
    simp only [if_neg ha]
    exact ih.cons₂ a

/-- The repair deletes only commas: every non-comma character is kept, in
order. -/
theorem fix_json_content_filter (l : List Char) :
    (fix_json_content l).filter (fun ch => !decide (ch = ',')) =
      l.filter (fun ch => !decide (ch = ',')) := by
  induction l using fix_json_content.induct with
  | case1 => simp [fix_json_content]
  | case2 rest b tail hdrop hbrace ih =>
    rw [fix_json_content, hdrop]
    simp only [hbrace, if_pos rfl, if_true]
    set ws := rest.takeWhile isPySpace with hws
    have hrest : ws ++ b :: tail = rest := by
      rw [hws]
      conv_rhs => rw [← List.takeWhile_append_dropWhile (p := isPySpace) (l := rest)]
      rw [hdrop]
    rw [← hrest]
    have hb : (!decide (b = ',')) = true := by
      rcases Bool.or_eq_true_iff.mp hbrace with h | h <;>
        · simp at h; subst h; decide
    simp [List.filter_append, List.filter_cons, hb, ih]
  | case3 rest b tail hdrop hbrace ih =>
    rw [fix_json_content, hdrop]
    simp only [hbrace, if_pos rfl, if_false, Bool.false_eq_true, reduceIte]
    simp [List.filter_cons, ih]
  | case4 rest hdrop ih =>
    rw [fix_json_content, hdrop]
    simp only [if_pos rfl]
    simp [List.filter_cons, ih]
  | case5 a rest ha ih =>
    rw [fix_json_content]
    simp only [if_neg ha]
    simp [List.filter_cons, ha, ih]

/-- The error counter of the `process_files` fold counts exactly the files that
parse neither directly nor after the repair. -/
theorem countStep_foldl_err {α : Type} (parse : List Char → Option (List (List Char × α)))
    (files : List (List Char)) (acc : Nat × Nat × Nat) :
    (files.foldl (countStep parse) acc).2.2 =
      acc.2.2 + files.countP
        (fun content => (parse content).isNone && (parse (fix_json_content content)).isNone) := by
  induction files generalizing acc with
  | nil => simp
  | cons content files ih =>
    rw [List.foldl_cons, ih]
    cases h1 : parse content with
    | some d => simp [countStep, processFileStep, List.countP_cons, h1]
    | none =>
      cases h2 : parse (fix_json_content content) with
      | some d => simp [countStep, processFileStep, List.countP_cons, h1, h2]
      | none =>
        simp [countStep, processFileStep, List.countP_cons, h1, h2]
        omega

/-- C7: on an artifact whose content fails to parse, the maintenance utility
applies exactly the trailing-comma repair — a pure character deletion that
removes only commas (each one standing, up to whitespace, before `}` or `]`)
and leaves all other characters unchanged, in particular leaving comma-free
content entirely as it is — and re-parses; when parsing still fails the file's
content is left completely untouched and the failure is counted in the
summary's error counter. -/
theorem C7_repair_failure_untouched {α : Type} :
    (∀ (parse : List Char → Option (List (List Char × α)))
       (dump : List (List Char × α) → List Char) (content : List Char),
      parse content = none → parse (fix_json_content content) = none →
      processFileStep parse content = FileResult.parseFailed ∧
      contentAfter parse dump content = content) ∧
    (∀ l, (fix_json_content l).Sublist l) ∧
    (∀ l, (fix_json_content l).filter (fun ch => !decide (ch = ',')) =
      l.filter (fun ch => !decide (ch = ','))) ∧
    (∀ (parse : List Char → Option (List (List Char × α))) (files : List (List Char)),
      (processFilesCounts parse files).2.2 = files.countP
        (fun content => (parse content).isNone && (parse (fix_json_content content)).isNone)) ∧
    (∀ l, (∀ ch ∈ l, ch ≠ ',') → fix_json_content l = l) := by
  refine ⟨?_, fix_json_content_sublist, fix_json_content_filter, ?_, ?_⟩
  · intro parse dump content h1 h2
    refine ⟨?_, ?_⟩ <;> simp [processFileStep, contentAfter, h1, h2]
  · intro parse files
    simpa using countStep_foldl_err parse files (0, 0, 0)
  · intro l hl
    have h1 : (fix_json_content l).filter (fun ch => !decide (ch = ',')) =
        fix_json_content l :=
      List.filter_eq_self.mpr (fun a ha => by
        simpa using hl a ((fix_json_content_sublist l).subset ha))
    have h2 : l.filter (fun ch => !decide (ch = ',')) = l :=
      List.filter_eq_self.mpr (fun a ha => by simpa using hl a ha)
    have hfix := fix_json_content_filter l
    rw [h1, h2] at hfix
    exact hfix

/-- Witness for C7: a parser that always fails leaves a file containing a lone
comma untouched and counts it as the one error. -/
theorem C7_repair_failure_untouched_witness :
    (processFileStep (fun _ => (none : Option (List (List Char × Nat)))) [','] =
      FileResult.parseFailed ∧
     contentAfter (fun _ => (none : Option (List (List Char × Nat))))
       (fun _ => []) [','] = [',']) ∧
    (processFilesCounts (fun _ => (none : Option (List (List Char × Nat)))) [[',']]).2.2 = 1 := by
  refine ⟨(C7_repair_failure_untouched.1 _ _ [','] rfl rfl), ?_⟩
  rw [(C7_repair_failure_untouched (α := Nat)).2.2.2.1 (fun _ => none) [[',']]]
  simp

/-- C9: on every artifact that parses — directly or after the trailing-comma
repair — `process_files` rewrites the file with the canonical serialization of
the dictionary from which exactly the reserved keys `usage_metadata` and
`file_metadata` have been removed; every other top-level entry survives, in
order, with its value unchanged. -/
theorem C9_metadata_removal {α : Type} (parse : List Char → Option (List (List Char × α)))
    (dump : List (List Char × α) → List Char) (content : List Char)
    (data : List (List Char × α)) :
    (parse content = some data →
      processFileStep parse content = FileResult.rewritten (removeKeys data) false ∧
      contentAfter parse dump content = dump (removeKeys data)) ∧
    (parse content = none → parse (fix_json_content content) = some data →
      processFileStep parse content = FileResult.rewritten (removeKeys data) true ∧
      contentAfter parse dump content = dump (removeKeys data)) ∧
    (∀ kv, kv ∈ removeKeys data ↔
      kv ∈ data ∧ kv.1 ≠ "usage_metadata".toList ∧ kv.1 ≠ "file_metadata".toList) ∧
    (removeKeys data).Sublist data := by
  refine ⟨?_, ?_, ?_, ?_⟩
  · intro h1
    exact ⟨by simp [processFileStep, h1], by simp [contentAfter, processFileStep, h1]⟩
  · intro h1 h2
    exact ⟨by simp [processFileStep, h1, h2], by simp [contentAfter, processFileStep, h1, h2]⟩
  · intro kv
    simp [removeKeys, keysToRemove, pyDelKey, List.mem_filter]
    tauto
  · simp only [removeKeys, keysToRemove, List.foldl]
    exact (List.filter_sublist _).trans (List.filter_sublist _)

/-- Witness for C9 on a concrete three-key artifact. -/
theorem C9_metadata_removal_witness :
    processFileStep exParse9 ['a'] = FileResult.rewritten (removeKeys exData9) false ∧
    contentAfter exParse9 exDump9 ['a'] = exDump9 (removeKeys exData9) :=
  (C9_metadata_removal exParse9 exDump9 ['a'] exData9).1 rfl

/-- `rfind` over an append: an occurrence in the right part wins, with the
index shifted by the left part's length. -/
theorem pyRFind_append (c : Char) (l r : List Char) :
    pyRFind c (l ++ r) =
      match pyRFind c r with
      | some i => some (l.length + i)
      | none => pyRFind c l := by
  induction l with
  | nil => cases h : pyRFind c r <;> simp [h, pyRFind]
  | cons a l ih =>
    rw [List.cons_append, pyRFind, ih]
    cases h : pyRFind c r with
    | some i =>
      simp only [List.length_cons]
      congr 1
      omega
    | none =>
      simp only []
      conv_rhs => rw [pyRFind]

/-- `os.path.splitext` undoes appending `.json` whenever the base holds at
least one non-dot character. -/
theorem splitextBase_append_json (b : List Char)
    (hb : b.any (fun ch => ch ≠ '.') = true) :
    splitextBase (b ++ ".json".toList) = b := by
  have h1 : pyRFind '.' (b ++ ".json".toList) = some b.length := by
    rw [pyRFind_append]
    have h0 : pyRFind '.' (".json".toList) = some 0 := by decide
    rw [h0]
    simp
  have h2 : (b ++ ".json".toList).take b.length = b := List.take_left b _
  rw [splitextBase, h1]
  simp [h2, hb]
  simpa using hb

/-- An artifact named `<base>.json` present in the output listing puts `base`
into the selector's processed set. -/
theorem appendJson_mem_processed (out : List (List Char)) (v : List Char)
    (hdot : (splitextBase v).any (fun ch => ch ≠ '.') = true)
    (hart : splitextBase v ++ ".json".toList ∈ out) :
    splitextBase v ∈
      (out.filter (fun f => pyEndsWith f (".json".toList))).map splitextBase := by
  refine List.mem_map.mpr ⟨splitextBase v ++ ".json".toList,
    List.mem_filter.mpr ⟨hart, ?_⟩, splitextBase_append_json _ hdot⟩
  simp [pyEndsWith]

/-- C4 counterexample: over input items a.mp4 and b.mp4 with `max_items = 1`
and no artifacts yet, the first run selects only a.mp4 (whose artifact a.json
it then writes); the second run over the unchanged roots still selects b.mp4 —
one item, not zero — so the selector does not return every input item whose
derived output key is absent. -/
theorem C4_counterexample :
    get_video_files ["a.mp4".toList, "b.mp4".toList] [] 1 id = ["a.mp4".toList] ∧
    get_video_files ["a.mp4".toList, "b.mp4".toList] ["a.json".toList] 1 id
      = ["b.mp4".toList] ∧
    ["b.mp4".toList] ≠ ([] : List (List Char)) := by
  refine ⟨by decide, by decide, by decide⟩

/-- C4 amended: every item whose artifact `<base>.json` already exists is
excluded by the selector; the selector returns only eligible input videos whose
output key is absent (a shuffled prefix of them, truncated to `max_items`,
rather than all of them); and when every eligible video already has its
artifact, a further run selects nothing. -/
theorem C4_amended_selector (inp out : List (List Char)) (maxItems : Nat)
    (shuffle : List (List Char) → List (List Char))
    (hs : ∀ l, (shuffle l).Perm l) :
    (∀ v, (splitextBase v).any (fun ch => ch ≠ '.') = true →
       splitextBase v ++ ".json".toList ∈ out →
       v ∉ get_video_files inp out maxItems shuffle) ∧
    (∀ v ∈ get_video_files inp out maxItems shuffle,
       v ∈ inp ∧ isVideoName v = true ∧
       splitextBase v ∉ (out.filter (fun f => pyEndsWith f (".json".toList))).map splitextBase) ∧
    ((∀ v ∈ inp, isVideoName v = true →
        (splitextBase v).any (fun ch => ch ≠ '.') = true ∧
        splitextBase v ++ ".json".toList ∈ out) →
      get_video_files inp out maxItems shuffle = []) := by
  have hmem : ∀ v ∈ get_video_files inp out maxItems shuffle,
      v ∈ inp ∧ isVideoName v = true ∧
      splitextBase v ∉ (out.filter (fun f => pyEndsWith f (".json".toList))).map splitextBase := by
    intro v hv
    rw [get_video_files] at hv
    have h1 := List.mem_of_mem_take hv
    have h2 := ((hs _).mem_iff).mp h1
    have h3 := List.mem_filter.mp h2
    have h4 := List.mem_filter.mp h3.1
    refine ⟨h4.1, h4.2, ?_⟩
    have h5 := h3.2
    simp only [decide_eq_true_eq] at h5
    exact h5
  refine ⟨?_, hmem, ?_⟩
  · intro v hdot hart hv
    exact (hmem v hv).2.2 (appendJson_mem_processed out v hdot hart)
  · intro hall
    have hnil : (inp.filter isVideoName).filter
        (fun v => decide (splitextBase v ∉
          (out.filter (fun f => pyEndsWith f (".json".toList))).map splitextBase)) = [] := by
      apply List.filter_eq_nil_iff.mpr
      intro v hv
      have h4 := List.mem_filter.mp hv
      obtain ⟨hdot, hart⟩ := hall v h4.1 h4.2
      simp only [decide_eq_true_eq, Decidable.not_not]
      exact appendJson_mem_processed out v hdot hart
    have hempty : shuffle ((inp.filter isVideoName).filter
        (fun v => decide (splitextBase v ∉
          (out.filter (fun f => pyEndsWith f (".json".toList))).map splitextBase))) = [] := by
      rw [hnil]
      exact ((hs []).symm.nil_eq).symm
    simp only [get_video_files, hempty, List.take_nil]

/-- Witness for C4: the item a.mp4, whose artifact a.json exists, is excluded. -/
theorem C4_amended_selector_witness :
    "a.mp4".toList ∉ get_video_files ["a.mp4".toList] ["a.json".toList] 5 id :=
  (C4_amended_selector ["a.mp4".toList] ["a.json".toList] 5 id (fun l => List.Perm.refl l)).1
    ("a.mp4".toList) (by decide) (by decide)

/-- Dropping a prefix with a weaker predicate first does not change the result
of dropping with a stronger one afterwards. -/
theorem dropWhile_dropWhile_append {α : Type} (p q : α → Bool) (l r : List α)
    (h : ∀ x, p x = true → q x = true) :
    ((l.dropWhile p) ++ r).dropWhile q = (l ++ r).dropWhile q := by
  induction l with
  | nil => rfl
  | cons a l ih =>
    by_cases hp : p a = true
    · rw [List.dropWhile_cons, if_pos hp, ih, List.cons_append, List.dropWhile_cons,
        if_pos (h a hp)]
    · rw [List.dropWhile_cons, if_neg hp]

/-- C2 counterexample: a call with budget 1 on the window [0] at time 1,
appending at 61: the code keeps the by-then-stale timestamp 0 in the deque,
whereas the claimed algorithm — re-check with eviction re-applied before
admitting — drops it; so the code performs no re-check after the sleep. -/
theorem C2_counterexample :
    wait_for_rate_limits 1 [0] 1 1 ≠ admitSpecAlg 1 [0] 1 1 ∧
    wait_for_rate_limits 1 [0] 1 1 = ([0, 61], 61) ∧
    admitSpecAlg 1 [0] 1 1 = ([61], 61) := by
  refine ⟨?_, ?_, ?_⟩ <;>
    norm_num [wait_for_rate_limits, admitSpecAlg, evict, List.dropWhile_cons]

/-- C2 amended: each call evicts from the front and computes the wait
`(oldest + 60) − now` under the lock, sleeps with the lock released, then
appends the fresh timestamp under the lock again *without* re-applying eviction
or re-checking; the skipped re-eviction is unobservable to any later
lock-holder — evicting at any time from the append onwards yields the same
window as the spec's algorithm — and the admission timestamp itself agrees. -/
theorem C2_amended_no_recheck (maxRpm : Nat) (window : List ℚ) (c slack c2 : ℚ)
    (h : (wait_for_rate_limits maxRpm window c slack).2 ≤ c2) :
    (wait_for_rate_limits maxRpm window c slack).2 =
      (admitSpecAlg maxRpm window c slack).2 ∧
    evict c2 (wait_for_rate_limits maxRpm window c slack).1 =
      evict c2 (admitSpecAlg maxRpm window c slack).1 := by
  refine ⟨rfl, ?_⟩
  have hle : (wait_for_rate_limits maxRpm window c slack).2 ≤ c2 := h
  show evict c2 (evict c window ++ [(wait_for_rate_limits maxRpm window c slack).2]) =
    evict c2 (evict (wait_for_rate_limits maxRpm window c slack).2 (evict c window) ++
      [(wait_for_rate_limits maxRpm window c slack).2])
  unfold evict
  refine (dropWhile_dropWhile_append _ _ _ _ ?_).symm
  intro x hx
  simp only [decide_eq_true_eq] at hx ⊢
  linarith

/-- Witness for C2 amended, at the counterexample's own input. -/
theorem C2_amended_no_recheck_witness :
    (wait_for_rate_limits 1 [0] 1 1).2 = (admitSpecAlg 1 [0] 1 1).2 ∧
    evict 61 (wait_for_rate_limits 1 [0] 1 1).1 = evict 61 (admitSpecAlg 1 [0] 1 1).1 :=
  C2_amended_no_recheck 1 [0] 1 1 61
    (by norm_num [wait_for_rate_limits, evict, List.dropWhile_cons])

/-- C1 counterexample: budget 1, three workers.  A admits at time 0; B and C
each observe the full window under the lock (at times 1 and 2) and compute
waits ending at 60; since nothing is re-checked after the sleep, both append
their admissions (at 61 and 62).  The 60-second window starting at 61 then
holds two admissions although `max_requests_per_minute = 1`. -/
theorem C1_counterexample :
    1 < ((crun 1 ⟨0, [], [], [WPhase.idle, WPhase.idle, WPhase.idle]⟩
      [Act.p1 0, Act.p2 0, Act.advance 1, Act.p1 1, Act.advance 1, Act.p1 2,
       Act.advance 59, Act.p2 1, Act.advance 1, Act.p2 2]).admitted.countP (inWin 61)) := by
  norm_num [crun, cstep, evict, inWin, List.foldl, List.dropWhile_cons, List.countP_cons,
    List.get?, List.set]

/-- The empty dispatcher start state satisfies the invariant. -/
theorem RLInv_init (maxRpm : Nat) : RLInv maxRpm seqInit := by
  refine ⟨⟨[], rfl, by simp⟩, by simp [seqInit], by simp [seqInit], by simp [seqInit],
    by simp [seqInit]⟩

/-- One sequential call preserves the invariant, provided the budget is at
least 1, the clock strictly advances between calls, and sleeps do not return
early. -/
theorem RLInv_step (maxRpm : Nat) (s : SeqSt) (gap slack : ℚ)
    (hm : 1 ≤ maxRpm) (hg : 0 < gap) (hsl : 0 ≤ slack)
    (hinv : RLInv maxRpm s) : RLInv maxRpm (seqStep maxRpm s gap slack) := by
  obtain ⟨⟨P, hPA, hPold⟩, hle, hlen, hfull, hcount⟩ := hinv
  set c := s.last + gap with hc
  set w := evict c s.window with hw
  set wait : ℚ := if maxRpm ≤ w.length then max 0 (w.headD 0 + 60 - c) else 0 with hwait
  set t := c + wait + slack with ht
  have hstep : seqStep maxRpm s gap slack = ⟨w ++ [t], s.admitted ++ [t], t⟩ := rfl
  have hwait0 : 0 ≤ wait := by
    rw [hwait]
    split
    · exact le_max_left _ _
    · exact le_refl _
  have hct : c ≤ t := by rw [ht]; linarith
  have hlast_lt_c : s.last < c := by rw [hc]; linarith
  have hlast_lt_t : s.last < t := lt_of_lt_of_le hlast_lt_c hct
  have hsplit : s.window = s.window.takeWhile (fun x => decide (60 < c - x)) ++ w := by
    rw [hw, evict]
    exact (List.takeWhile_append_dropWhile _ _).symm
  set D := s.window.takeWhile (fun x => decide (60 < c - x)) with hD
  have hDold : ∀ x ∈ D, x < c - 60 := by
    intro x hx
    have hpx := List.mem_takeWhile_imp hx
    simp only [decide_eq_true_eq] at hpx
    linarith
  have hwlen : w.length ≤ maxRpm := by
    by_cases hL : s.window.length ≤ maxRpm
    · calc w.length ≤ s.window.length := by
            rw [hw, evict]; exact length_dropWhile_le _ _
        _ ≤ maxRpm := hL
    · have hwl : s.window.length = maxRpm + 1 := le_antisymm hlen (by omega)
      have hhead := hfull hwl
      cases hwin : s.window with
      | nil => rw [hwin] at hwl; simp at hwl
      | cons h0 tl =>
        have hh0 : s.window.headD 0 = h0 := by rw [hwin]; rfl
        rw [hh0] at hhead
        have hold : (60:ℚ) < c - h0 := by linarith
        have hwtl : w = tl.dropWhile (fun x => decide (60 < c - x)) := by
          rw [hw, evict, hwin]
          simp only [List.dropWhile_cons, decide_eq_true_eq, hold, if_pos]
        calc w.length ≤ tl.length := by rw [hwtl]; exact length_dropWhile_le _ _
          _ ≤ maxRpm := by rw [hwin] at hwl; simp at hwl; omega
  have hfullcase : maxRpm ≤ w.length →
      ∃ w0 wtl, w = w0 :: wtl ∧ w0 + 60 ≤ t ∧ wtl.length + 1 = maxRpm := by
    intro hfw
    have hweq : w.length = maxRpm := le_antisymm hwlen hfw
    cases hwcase : w with
    | nil => rw [hwcase] at hweq; simp at hweq; omega
    | cons w0 wtl =>
      refine ⟨w0, wtl, rfl, ?_, ?_⟩
      · have hwd : w.headD 0 = w0 := by rw [hwcase]; rfl
        have hwmax : wait = max 0 (w0 + 60 - c) := by rw [hwait, if_pos hfw, hwd]
        have h1 : w0 + 60 - c ≤ wait := by rw [hwmax]; exact le_max_right _ _
        rw [ht]; linarith
      · rw [hwcase] at hweq; simpa using hweq
  rw [hstep]
  refine ⟨⟨P ++ D, ?_, ?_⟩, ?_, ?_, ?_, ?_⟩
  · show s.admitted ++ [t] = (P ++ D) ++ (w ++ [t])
    rw [hPA]
    conv_lhs => rw [hsplit]
    simp [List.append_assoc]
  · intro x hx
    rcases List.mem_append.mp hx with hx | hx
    · have := hPold x hx
      show x ≤ t - 60
      linarith
    · have := hDold x hx
      show x ≤ t - 60
      linarith
  · intro x hx
    rcases List.mem_append.mp hx with hx | hx
    · exact le_trans (hle x hx) (le_of_lt hlast_lt_t)
    · rw [List.mem_singleton.mp hx]
  · show (w ++ [t]).length ≤ maxRpm + 1
    simp only [List.length_append, List.length_singleton]
    omega
  · intro hlen2
    simp only [List.length_append, List.length_singleton] at hlen2
    have hfw : maxRpm ≤ w.length := by omega
    obtain ⟨w0, wtl, hwc, hwt, _⟩ := hfullcase hfw
    rw [hwc]
    show ((w0 :: wtl) ++ [t]).headD 0 ≤ t - 60
    simp only [List.cons_append, List.headD_cons]
    linarith
  · intro a
    show (s.admitted ++ [t]).countP (inWin a) ≤ maxRpm
    rw [List.countP_append]
    by_cases hwa : inWin a t = true
    · have hat : a ≤ t ∧ t < a + 60 := by simpa [inWin] using hwa
      have hsplitA : s.admitted = (P ++ D) ++ w := by
        rw [hPA]
        conv_lhs => rw [hsplit]
        simp [List.append_assoc]
      have hcl : s.admitted.countP (inWin a) + 1 ≤ maxRpm := by
        rw [hsplitA, List.countP_append]
        have hPD0 : (P ++ D).countP (inWin a) = 0 := by
          rw [List.countP_eq_zero]
          intro x hx
          rcases List.mem_append.mp hx with hx | hx
          · have := hPold x hx
            simp only [inWin, decide_eq_true_eq, not_and, not_lt]
            intro hax
            linarith
          · have := hDold x hx
            simp only [inWin, decide_eq_true_eq, not_and, not_lt]
            intro hax
            linarith
        rw [hPD0]
        by_cases hfw : maxRpm ≤ w.length
        · obtain ⟨w0, wtl, hwc, hwt, hwlen1⟩ := hfullcase hfw
          rw [hwc, List.countP_cons]
          have hw0 : inWin a w0 = false := by
            simp only [inWin, decide_eq_false_iff_not, not_and, not_lt]
            intro hax
            linarith
          rw [hw0]
          simp only [if_false, Bool.false_eq_true, reduceIte]
          have hwtlc := List.countP_le_length (p := inWin a) (l := wtl)
          omega
        · have h1 := List.countP_le_length (p := inWin a) (l := w)
          omega
      have h1 : List.countP (inWin a) [t] = 1 := by
        simp [List.countP_cons, hwa]
      omega
    · have hwa0 : inWin a t = false := by simpa using hwa
      have h0 : List.countP (inWin a) [t] = 0 := by
        simp [List.countP_cons, hwa0]
      rw [h0]
      have := hcount a
      omega

/-- The invariant holds after any sequential run of strictly-spaced calls. -/
theorem RLInv_run (maxRpm : Nat) (steps : List (ℚ × ℚ)) :
    ∀ (s : SeqSt), (∀ p ∈ steps, 0 < p.1 ∧ 0 ≤ p.2) → 1 ≤ maxRpm → RLInv maxRpm s →
      RLInv maxRpm (seqRun maxRpm s steps) := by
  induction steps with
  | nil => intro s _ _ h; exact h
  | cons p ps ih =>
    intro s hsteps hm hinv
    rw [seqRun]
    exact ih _ (fun q hq => hsteps q (List.mem_cons_of_mem _ hq)) hm
      (RLInv_step maxRpm s p.1 p.2 hm (hsteps p (List.mem_cons_self _ _)).1
        (hsteps p (List.mem_cons_self _ _)).2 hinv)

/-- C1 amended: when the calls to `wait_for_rate_limits` do not overlap (each
call runs to completion before the next begins — e.g. one worker), the clock
strictly advances between calls and sleeps never return early, every 60-second
window `[a, a + 60)` holds at most `max_requests_per_minute ≥ 1` admissions;
under concurrent overlapping calls the budget can be exceeded. -/
theorem C1_amended_sequential_budget (maxRpm : Nat) (steps : List (ℚ × ℚ))
    (hm : 1 ≤ maxRpm) (hsteps : ∀ p ∈ steps, 0 < p.1 ∧ 0 ≤ p.2) (a : ℚ) :
    ((seqRun maxRpm seqInit steps).admitted.countP (inWin a)) ≤ maxRpm :=
  (RLInv_run maxRpm steps seqInit hsteps hm (RLInv_init maxRpm)).2.2.2.2 a

/-- Witness for C1 amended on a two-call run with budget 1. -/
theorem C1_amended_sequential_budget_witness :
    ((seqRun 1 seqInit [(1, 0), (1, 1)]).admitted.countP (inWin 5)) ≤ 1 :=
  C1_amended_sequential_budget 1 [(1, 0), (1, 1)] (le_refl 1) (by decide) 5

end QwenVidCap
